import Mathlib

/-! # constexpr_test: a verification development for `main.cpp`

The program defines a `constexpr` integer power function `pow`, a two-coordinate value type
`Point` with `constexpr` constructor, accessors and setters, two derived operations `midPoint`
and `reflection`, and an entry routine `main`.

Embedding conventions.

* A C++ `int` is a Lean `Int` together with the range `INT_MIN ≤ z ≤ INT_MAX` (32 bits).  The
  result of every `int` operation of the source passes through `IntSem.arith`, which either
  treats a result outside the range as undefined behaviour (`IntSem.strict`, the reading of
  ISO C++) or reduces it modulo `2^32` (`IntSem.wrapping`, two's complement).
* The `for` loop of `pow` is a step function on the loop state, iterated by structural
  recursion on a fuel argument; `pow` supplies `exp.toNat` units of fuel and the lemmas below
  show that this is always enough.
* The operations on `Point` are written over an arbitrary carrier `α` of coordinate values with
  the operations the source uses (`0`, `2`, `-`, `+`, `/`).  The carrier of the program is
  `Double`, IEEE 754 binary64 with round-to-nearest, ties-to-even: a finite value is a sign and
  a magnitude counted in units of `2^-1074`, and every arithmetic result is the correctly
  rounded exact result.
* A member function of `Point` is a function from the object (`self`) to the returned value
  and the object after the call.
-/

namespace ConstexprTest

/-! ## 32-bit `int` arithmetic -/

/-- Smallest value of a 32-bit signed `int`. -/
def INT_MIN : Int := -2147483648

/-- Largest value of a 32-bit signed `int`. -/
def INT_MAX : Int := 2147483647

/-- Representability of an integer as a 32-bit signed `int`. -/
def isInt (z : Int) : Prop := INT_MIN ≤ z ∧ z ≤ INT_MAX

instance (z : Int) : Decidable (isInt z) := by
  unfold isInt
  exact inferInstance

/-- Two's-complement reduction: the representative of `z` modulo `2^32` that lies in
`[-2^31, 2^31)`. -/
def wrapInt (z : Int) : Int := (z + 2147483648) % 4294967296 - 2147483648

/-- Outcome of running a piece of the program. -/
inductive Run (α : Type) where
  /-- Normal completion with a value. -/
  | ok (v : α) : Run α
  /-- A signed overflow under the strict reading, where it has no defined result. -/
  | undefinedBehaviour : Run α
  /-- The model ran out of fuel before the loop finished. -/
  | outOfFuel : Run α
  deriving DecidableEq, Repr

/-- Sequencing of two runs. -/
def Run.bind {α β : Type} (r : Run α) (f : α → Run β) : Run β :=
  match r with
  | .ok v => f v
  | .undefinedBehaviour => .undefinedBehaviour
  | .outOfFuel => .outOfFuel

/-- Post-processing of the value of a run. -/
def Run.map {α β : Type} (f : α → β) (r : Run α) : Run β :=
  match r with
  | .ok v => .ok (f v)
  | .undefinedBehaviour => .undefinedBehaviour
  | .outOfFuel => .outOfFuel

/-- How an `int` result outside `[INT_MIN, INT_MAX]` is treated. -/
inductive IntSem where
  /-- Signed overflow is undefined behaviour. -/
  | strict : IntSem
  /-- Signed overflow wraps around modulo `2^32`. -/
  | wrapping : IntSem
  deriving DecidableEq, Repr

/-- The `int` value produced by an operation whose exact mathematical result is `z`. -/
def IntSem.arith (sem : IntSem) (z : Int) : Run Int :=
  match sem with
  | .strict => if isInt z then .ok z else .undefinedBehaviour
  | .wrapping => .ok (wrapInt z)

/-! ## `pow` -/

/-- Loop state of `pow`: the counter `i`, the accumulator `result`, and a ghost count of the
executions of the loop body. -/
structure PowState where
  i : Int
  result : Int
  iterations : Nat
  deriving DecidableEq, Repr

/-- One pass through the loop of `pow`: the body `result *= base`, then `++i`. -/
def powBody (sem : IntSem) (base : Int) (s : PowState) : Run PowState :=
  (sem.arith (s.result * base)).bind fun r =>
    (sem.arith (s.i + 1)).bind fun j =>
      .ok { i := j, result := r, iterations := s.iterations + 1 }

/-- The loop `for (...; i < exp; ++i) result *= base;` from state `s`, at most `fuel` passes. -/
def powLoop (sem : IntSem) (base exp : Int) : Nat → PowState → Run PowState
  | 0, s => if s.i < exp then .outOfFuel else .ok s
  | fuel + 1, s =>
    if s.i < exp then (powBody sem base s).bind (powLoop sem base exp fuel) else .ok s

/-- State on entry to the loop of `pow`: `auto result = 1; int i = 0`. -/
def powInit : PowState := { i := 0, result := 1, iterations := 0 }

/-- The whole run of `pow(base, exp)` with `fuel` passes allowed: final loop state. -/
def powRun (sem : IntSem) (fuel : Nat) (base exp : Int) : Run PowState :=
  powLoop sem base exp fuel powInit

/-- `constexpr int pow(int base, int exp) noexcept`: `return result;` after the loop. -/
def pow (sem : IntSem) (base exp : Int) : Run Int :=
  (powRun sem exp.toNat base exp).map PowState.result

/-! ## `double` -/

/-- A `double` (IEEE 754 binary64).  A finite value is a sign and a magnitude counted in units
of `2^-1074`, the smallest positive `double`; both zeros are finite values of magnitude `0`. -/
inductive Double where
  /-- The finite value `(-1)^neg * mag * 2^-1074`. -/
  | finite (neg : Bool) (mag : Nat) : Double
  /-- An infinity. -/
  | inf (neg : Bool) : Double
  /-- Not a number. -/
  | nan : Double
  deriving DecidableEq, Repr

/-- The quotient `n / d` rounded to the nearest natural number, ties to the even one. -/
def roundNearestEven (n d : Nat) : Nat :=
  let q := n / d
  let r := n % d
  if 2 * r < d then q else if d < 2 * r then q + 1 else if q % 2 = 0 then q else q + 1

/-- The least `k` with `n < t ^ (2 ^ k)`, found by squaring `t` at most `fuel` times. -/
def sizeExp : Nat → Nat → Nat → Nat
  | 0, _, _ => 0
  | fuel + 1, t, n => if n < t then 0 else sizeExp fuel (t * t) n + 1

/-- Position of the leading binary digit of `n`, for `n < 2 ^ (2 ^ k)`: the upper half of the
`2 ^ k` digit positions is tried first. -/
def log2Bounded : Nat → Nat → Nat
  | 0, _ => 0
  | k + 1, n =>
    if n < 2 ^ 2 ^ k then log2Bounded k n else 2 ^ k + log2Bounded k (n / 2 ^ 2 ^ k)

/-- Position of the leading binary digit of `n` (and `0` for `n = 0`). -/
def ilog2 (n : Nat) : Nat := log2Bounded (sizeExp n 2 n) n

/-- Number of low binary digits that a magnitude with integer part `q` cannot hold: a
significand has 53 digits. -/
def Double.shift (q : Nat) : Nat := ilog2 q - 52

/-- Magnitude of `1.0`. -/
def Double.oneMag : Nat := 2 ^ 1074

/-- Magnitude of `2^1024`, the first power of two that is too large for a `double`. -/
def Double.overflowMag : Nat := 2 ^ 2098

/-- Correct rounding: the `double` nearest to `(-1)^neg * (n / d) * 2^-1074`, ties to the even
significand, and an infinity when the rounded magnitude reaches `2^1024`. -/
def Double.round (neg : Bool) (n d : Nat) : Double :=
  let s := Double.shift (n / d)
  let m := roundNearestEven n (d * 2 ^ s) * 2 ^ s
  if m < Double.overflowMag then .finite neg m else .inf neg

/-- Conversion of a non-negative integer, as for the `int` literals `0` and `2` of the source. -/
def Double.ofNat (n : Nat) : Double := Double.round false (n * Double.oneMag) 1

/-- Conversion of a decimal literal `m * 10^(-e)` (`s` true) or `m * 10^e` (`s` false). -/
def Double.ofScientific (m : Nat) (s : Bool) (e : Nat) : Double :=
  if s then Double.round false (m * Double.oneMag) (10 ^ e)
  else Double.round false (m * 10 ^ e * Double.oneMag) 1

/-- Unary minus: the sign is flipped. -/
def Double.neg : Double → Double
  | .finite s k => .finite (!s) k
  | .inf s => .inf (!s)
  | .nan => .nan

/-- Addition. -/
def Double.add : Double → Double → Double
  | .nan, _ => .nan
  | _, .nan => .nan
  | .inf s, .inf t => if s = t then .inf s else .nan
  | .inf s, .finite _ _ => .inf s
  | .finite _ _, .inf t => .inf t
  | .finite s a, .finite t b =>
    if s = t then Double.round s (a + b) 1
    else if a = b then .finite false 0
    else if b < a then Double.round s (a - b) 1
    else Double.round t (b - a) 1

/-- Division. -/
def Double.div : Double → Double → Double
  | .nan, _ => .nan
  | _, .nan => .nan
  | .inf _, .inf _ => .nan
  | .inf s, .finite t _ => .inf (s != t)
  | .finite s _, .inf t => .finite (s != t) 0
  | .finite s a, .finite t b =>
    if b = 0 then (if a = 0 then .nan else .inf (s != t))
    else Double.round (s != t) (a * Double.oneMag) b

instance : Zero Double := ⟨Double.ofNat 0⟩

instance (n : Nat) : OfNat Double n := ⟨Double.ofNat n⟩

instance : OfScientific Double := ⟨Double.ofScientific⟩

instance : Neg Double := ⟨Double.neg⟩

instance : Add Double := ⟨Double.add⟩

instance : Div Double := ⟨Double.div⟩

/-- The comparison `==` of two `double`s: the two zeros are equal and a NaN equals nothing. -/
def Double.eq : Double → Double → Bool
  | .nan, _ => false
  | _, .nan => false
  | .finite s a, .finite t b => (a == 0 && b == 0) || (s == t && a == b)
  | .inf s, .inf t => s == t
  | .finite _ _, .inf _ => false
  | .inf _, .finite _ _ => false

/-- The exact value of a finite `double`, as an integer number of units of `2^-1074`. -/
def Double.units : Double → Option Int
  | .finite false k => some (k : Int)
  | .finite true k => some (-(k : Int))
  | .inf _ => none
  | .nan => none

/-- The magnitudes of the finite `double`s: below `2^1024`, with at most 53 significant
binary digits. -/
def Double.representable (k : Nat) : Prop := k < Double.overflowMag ∧ k % 2 ^ Double.shift k = 0

instance (k : Nat) : Decidable (Double.representable k) := by
  unfold Double.representable
  exact inferInstance

/-- Finiteness: a value that is neither an infinity nor a NaN. -/
def Double.isFinite : Double → Bool
  | .finite _ _ => true
  | .inf _ => false
  | .nan => false

/-- `DBL_MAX`, the largest finite `double`, `(2^53 - 1) * 2^971`. -/
def DBL_MAX : Double := .finite false ((2 ^ 53 - 1) * 2 ^ 2045)

/-! ## `Point` -/

/-- The class `Point`: two private `double` members `x`, `y`, over a carrier `α` of
coordinate values. -/
structure Point (α : Type) where
  x : α
  y : α
  deriving DecidableEq, Repr

/-- `constexpr Point(double xVal = 0, double yVal = 0) noexcept : x(xVal), y(yVal) { }`. -/
def Point.ctor {α : Type} [Zero α] (xVal : α := 0) (yVal : α := 0) : Point α :=
  { x := xVal, y := yVal }

/-- `constexpr double xValue() const noexcept { return x; }`: returned value and the object
after the call. -/
def Point.xValue {α : Type} (self : Point α) : α × Point α := (self.x, self)

/-- `constexpr double yValue() const noexcept { return y; }`: returned value and the object
after the call. -/
def Point.yValue {α : Type} (self : Point α) : α × Point α := (self.y, self)

/-- `constexpr void setX(double newX) noexcept { x = newX; }`: the object after the call. -/
def Point.setX {α : Type} (self : Point α) (newX : α) : Unit × Point α :=
  ((), { self with x := newX })

/-- `constexpr void setY(double newY) noexcept { y = newY; }`: the object after the call. -/
def Point.setY {α : Type} (self : Point α) (newY : α) : Unit × Point α :=
  ((), { self with y := newY })

/-- `constexpr Point midPoint(const Point& p1, const Point& p2) noexcept`:
`return {(p1.xValue() + p2.xValue()) / 2, (p1.yValue() + p2.yValue()) / 2};`. -/
def midPoint {α : Type} [Zero α] [Add α] [Div α] [OfNat α 2] (p1 p2 : Point α) : Point α :=
  Point.ctor ((p1.xValue.1 + p2.xValue.1) / 2) ((p1.yValue.1 + p2.yValue.1) / 2)

/-- `constexpr Point reflection(const Point& p) noexcept`: a default-constructed `result`,
then `result.setX(-p.xValue()); result.setY(-p.yValue()); return result;`. -/
def reflection {α : Type} [Zero α] [Neg α] (p : Point α) : Point α :=
  let result : Point α := Point.ctor
  let result := (result.setX (-p.xValue.1)).2
  let result := (result.setY (-p.yValue.1)).2
  result

/-! ## `main` -/

/-- `constexpr auto arraySize2 = 10;` -/
def main.arraySize2 : Int := 10

/-- `const auto arraySize3 = 10;` -/
def main.arraySize3 : Int := 10

/-- The local variables of `main` when it returns. -/
structure MainLocals where
  sz : Int
  data2 : Fin main.arraySize2.toNat → Int
  arraySize : Int
  data3 : Fin main.arraySize3.toNat → Int
  p1 : Point Double
  p2 : Point Double
  mid : Point Double
  reflectedMid : Point Double

/-- `int main()`.  The two arrays are declared without an initialiser, so their contents are
arbitrary and enter as arguments.  Returns the locals and the exit status. -/
def main (data2 : Fin main.arraySize2.toNat → Int) (data3 : Fin main.arraySize3.toNat → Int) :
    MainLocals × Int :=
  let sz : Int := 1
  let arraySize : Int := sz
  let p1 : Point Double := Point.ctor 9.4 27.7
  let p2 : Point Double := Point.ctor 28.8 5.3
  let mid := midPoint p1 p2
  let reflectedMid := reflection mid
  ({ sz := sz, data2 := data2, arraySize := arraySize, data3 := data3,
     p1 := p1, p2 := p2, mid := mid, reflectedMid := reflectedMid }, 1)

/-! ## Facts about 32-bit arithmetic -/

theorem wrapInt_of_isInt {z : Int} (h : isInt z) : wrapInt z = z := by
  unfold isInt INT_MIN INT_MAX at h
  unfold wrapInt
  omega

theorem isInt_wrapInt (z : Int) : isInt (wrapInt z) := by
  unfold isInt INT_MIN INT_MAX wrapInt
  omega

theorem wrapInt_congruent (z : Int) : (4294967296 : Int) ∣ wrapInt z - z := by
  refine ⟨-((z + 2147483648) / 4294967296), ?_⟩
  unfold wrapInt
  omega

theorem wrapInt_mul_left (x b : Int) : wrapInt (wrapInt x * b) = wrapInt (x * b) := by
  obtain ⟨q, hq⟩ := wrapInt_congruent x
  have hx : wrapInt x * b + 2147483648 = (x * b + 2147483648) + 4294967296 * (q * b) := by
    have : wrapInt x = x + 4294967296 * q := by omega
    rw [this]
    ring
  unfold wrapInt at hx ⊢
  rw [hx, Int.add_mul_emod_self_left]

theorem arith_strict_of_isInt {z : Int} (h : isInt z) : IntSem.strict.arith z = .ok z := by
  simp [IntSem.arith, h]

theorem arith_of_isInt (sem : IntSem) {z : Int} (h : isInt z) : sem.arith z = .ok z := by
  cases sem
  · exact arith_strict_of_isInt h
  · simp [IntSem.arith, wrapInt_of_isInt h]

/-- If `b ^ (k + 1)` fits in an `int`, so does the previous power `b ^ k`. -/
theorem isInt_pow_pred (b : Int) (k : Nat) (h : isInt (b ^ (k + 1))) : isInt (b ^ k) := by
  have habs : (b ^ (k + 1)).natAbs = (b ^ k).natAbs * b.natAbs := by
    rw [pow_succ, Int.natAbs_mul]
  have hk : (b ^ k).natAbs = b.natAbs ^ k := Int.natAbs_pow b k
  unfold isInt INT_MIN INT_MAX at h ⊢
  by_cases hb : b.natAbs ≤ 1
  · have : b.natAbs ^ k ≤ 1 := pow_le_one₀ (Nat.zero_le _) hb
    omega
  · have h2 : (b ^ k).natAbs * 2 ≤ (b ^ k).natAbs * b.natAbs :=
      Nat.mul_le_mul_left _ (by omega)
    omega

/-- Every power below a representable one is representable. -/
theorem isInt_pow_le (b : Int) (n : Nat) (h : isInt (b ^ n)) :
    ∀ k : Nat, k ≤ n → isInt (b ^ k) := by
  induction n with
  | zero =>
    intro k hk
    have : k = 0 := by omega
    subst this
    exact h
  | succ n ih =>
    intro k hk
    rcases Nat.lt_or_ge k (n + 1) with hlt | hge
    · exact ih (isInt_pow_pred b n h) k (by omega)
    · have : k = n + 1 := by omega
      subst this
      exact h

/-! ## The loop of `pow` -/

/-- When the loop condition is false on entry the loop returns its state untouched, whatever
the fuel. -/
theorem powLoop_exit (sem : IntSem) (base exp : Int) (fuel : Nat) (s : PowState)
    (h : ¬ s.i < exp) : powLoop sem base exp fuel s = .ok s := by
  cases fuel <;> simp [powLoop, h]

/-- Loop invariant.  Suppose `acc k` is the accumulator after `k` passes: each product
`acc k * base` evaluates to `acc (k + 1)` and each increment of the counter is exact.  Then
from the state after `k` passes, with `n` passes left and at least `n` units of fuel, the loop
ends in the state after `k + n` passes. -/
theorem powLoop_invariant (sem : IntSem) (base exp : Int) (acc : Nat → Int)
    (hmul : ∀ k : Nat, (k : Int) < exp → sem.arith (acc k * base) = .ok (acc (k + 1)))
    (hinc : ∀ k : Nat, (k : Int) < exp → sem.arith ((k : Int) + 1) = .ok ((k : Int) + 1)) :
    ∀ (n k fuel : Nat), (k : Int) + n = exp → n ≤ fuel →
      powLoop sem base exp fuel { i := k, result := acc k, iterations := k }
        = .ok { i := exp, result := acc (k + n), iterations := k + n } := by
  intro n
  induction n with
  | zero =>
    intro k fuel hk _
    rw [powLoop_exit]
    · simp at hk
      simp [hk]
    · simp at hk
      simp [← hk]
  | succ n ih =>
    intro k fuel hk hfuel
    obtain ⟨fuel, rfl⟩ : ∃ f, fuel = f + 1 := ⟨fuel - 1, by omega⟩
    have hlt : (k : Int) < exp := by push_cast at hk; omega
    have hstep : powBody sem base { i := k, result := acc k, iterations := k }
        = .ok { i := ((k + 1 : Nat) : Int), result := acc (k + 1), iterations := k + 1 } := by
      simp [powBody, hmul k hlt, hinc k hlt, Run.bind]
    have hnext := ih (k + 1) fuel (by push_cast at hk ⊢; omega) (by omega)
    simp only [powLoop, hlt, if_true, hstep, Run.bind]
    rw [hnext]
    have : k + 1 + n = k + (n + 1) := by omega
    rw [this]

/-- The run of `pow` for a non-negative exponent that fits in an `int`, under the hypotheses
of the loop invariant: the loop ends after `exp` passes with the accumulator `acc exp`. -/
theorem powRun_of_invariant (sem : IntSem) (base exp : Int) (acc : Nat → Int) (h0 : acc 0 = 1)
    (hexp : 0 ≤ exp)
    (hmul : ∀ k : Nat, (k : Int) < exp → sem.arith (acc k * base) = .ok (acc (k + 1)))
    (hinc : ∀ k : Nat, (k : Int) < exp → sem.arith ((k : Int) + 1) = .ok ((k : Int) + 1))
    (fuel : Nat) (hfuel : exp.toNat ≤ fuel) :
    powRun sem fuel base exp
      = .ok { i := exp, result := acc exp.toNat, iterations := exp.toNat } := by
  have h := powLoop_invariant sem base exp acc hmul hinc exp.toNat 0 fuel
    (by simp [Int.toNat_of_nonneg hexp]) hfuel
  simpa [powRun, powInit, h0] using h

/-- Counter increments below an `int` exponent never overflow. -/
theorem arith_succ_counter (sem : IntSem) (exp : Int) (hexp : exp ≤ INT_MAX) :
    ∀ k : Nat, (k : Int) < exp → sem.arith ((k : Int) + 1) = .ok ((k : Int) + 1) := by
  intro k hk
  apply arith_of_isInt
  unfold isInt INT_MIN
  unfold INT_MAX at hexp ⊢
  omega

/-- Run of `pow` when `base ^ exp` is representable: under either reading of overflow the
loop ends after `exp` passes with the exact power. -/
theorem powRun_exact (sem : IntSem) (base exp : Int) (hexp : 0 ≤ exp) (hmax : exp ≤ INT_MAX)
    (hrep : isInt (base ^ exp.toNat)) (fuel : Nat) (hfuel : exp.toNat ≤ fuel) :
    powRun sem fuel base exp
      = .ok { i := exp, result := base ^ exp.toNat, iterations := exp.toNat } := by
  apply powRun_of_invariant sem base exp (fun k => base ^ k) (by simp) hexp _
    (arith_succ_counter sem exp hmax) fuel hfuel
  intro k hk
  rw [← pow_succ]
  exact arith_of_isInt sem (isInt_pow_le base exp.toNat hrep (k + 1) (by omega))

/-- Run of `pow` under the wrapping reading. -/
theorem powRun_wrapping (base exp : Int) (hexp : 0 ≤ exp) (hmax : exp ≤ INT_MAX)
    (fuel : Nat) (hfuel : exp.toNat ≤ fuel) :
    powRun .wrapping fuel base exp
      = .ok { i := exp, result := wrapInt (base ^ exp.toNat), iterations := exp.toNat } := by
  apply powRun_of_invariant .wrapping base exp (fun k => wrapInt (base ^ k))
    (by simp [wrapInt]) hexp _ (arith_succ_counter .wrapping exp hmax) fuel hfuel
  intro k _
  simp [IntSem.arith, wrapInt_mul_left, pow_succ]

/-- Run of `pow` when the exponent is not positive: the loop condition fails at once. -/
theorem powRun_nonpos (sem : IntSem) (base exp : Int) (hexp : exp ≤ 0) (fuel : Nat) :
    powRun sem fuel base exp = .ok powInit := by
  unfold powRun
  apply powLoop_exit
  simp [powInit]
  omega

/-! ## Counter, termination and the two readings of overflow -/

theorem wrapInt_mul_right (a y : Int) : wrapInt (a * wrapInt y) = wrapInt (a * y) := by
  rw [mul_comm, wrapInt_mul_left, mul_comm]

/-- An operation that has a value under the strict reading has the same value under every
reading. -/
theorem arith_of_strict_ok (sem : IntSem) {z v : Int} (h : IntSem.strict.arith z = .ok v) :
    sem.arith z = .ok v := by
  by_cases hz : isInt z
  · simp [IntSem.arith, hz] at h
    subst h
    exact arith_of_isInt sem hz
  · simp [IntSem.arith, hz] at h

/-- One pass that succeeds under the strict reading does the same under every reading. -/
theorem powBody_of_strict_ok (sem : IntSem) (base : Int) (s t : PowState)
    (h : powBody .strict base s = .ok t) : powBody sem base s = .ok t := by
  unfold powBody at h ⊢
  cases h1 : IntSem.strict.arith (s.result * base) with
  | ok r =>
    rw [h1] at h
    rw [arith_of_strict_ok sem h1]
    simp only [Run.bind] at h ⊢
    cases h2 : IntSem.strict.arith (s.i + 1) with
    | ok j =>
      rw [h2] at h
      rw [arith_of_strict_ok sem h2]
      exact h
    | undefinedBehaviour => rw [h2] at h; cases h
    | outOfFuel => rw [h2] at h; cases h
  | undefinedBehaviour => rw [h1] at h; cases h
  | outOfFuel => rw [h1] at h; cases h

/-- A loop run that succeeds under the strict reading ends in the same state under every
reading. -/
theorem powLoop_of_strict_ok (sem : IntSem) (base exp : Int) :
    ∀ (fuel : Nat) (s t : PowState),
      powLoop .strict base exp fuel s = .ok t → powLoop sem base exp fuel s = .ok t := by
  intro fuel
  induction fuel with
  | zero =>
    intro s t h
    by_cases hc : s.i < exp
    · simp [powLoop, hc] at h
    · rw [powLoop_exit _ _ _ _ _ hc] at h ⊢
      exact h
  | succ fuel ih =>
    intro s t h
    by_cases hc : s.i < exp
    · simp only [powLoop, hc, if_true] at h ⊢
      cases hb : powBody .strict base s with
      | ok u =>
        rw [hb] at h
        rw [powBody_of_strict_ok sem base s u hb]
        exact ih u t h
      | undefinedBehaviour => rw [hb] at h; cases h
      | outOfFuel => rw [hb] at h; cases h
    · rw [powLoop_exit _ _ _ _ _ hc] at h ⊢
      exact h

/-- The value of `pow` under the strict reading, when there is one, is its value under every
reading. -/
theorem pow_of_strict_ok (sem : IntSem) (base exp v : Int) (h : pow .strict base exp = .ok v) :
    pow sem base exp = .ok v := by
  unfold pow powRun at h ⊢
  cases hl : powLoop .strict base exp exp.toNat powInit with
  | ok t =>
    rw [hl] at h
    rw [powLoop_of_strict_ok sem base exp _ _ t hl]
    exact h
  | undefinedBehaviour => rw [hl] at h; cases h
  | outOfFuel => rw [hl] at h; cases h

/-- A pass of the loop that completes moves the counter up by exactly one, without leaving the
`int` range, and counts one more execution of the body. -/
theorem powBody_counter (sem : IntSem) (base exp : Int) (hmax : exp ≤ INT_MAX)
    (s t : PowState) (h0 : 0 ≤ s.i) (hc : s.i < exp) (h : powBody sem base s = .ok t) :
    t.i = s.i + 1 ∧ s.i + 1 ≤ INT_MAX ∧ t.iterations = s.iterations + 1 := by
  have hin : isInt (s.i + 1) := by
    unfold isInt INT_MIN
    unfold INT_MAX at hmax ⊢
    omega
  unfold powBody at h
  rw [arith_of_isInt sem hin] at h
  cases h1 : sem.arith (s.result * base) with
  | ok r =>
    rw [h1] at h
    simp only [Run.bind, Run.ok.injEq] at h
    subst h
    exact ⟨rfl, by omega, rfl⟩
  | undefinedBehaviour => rw [h1] at h; cases h
  | outOfFuel => rw [h1] at h; cases h

/-- The pass of the loop itself never reports a lack of fuel. -/
theorem powBody_ne_outOfFuel (sem : IntSem) (base : Int) (s : PowState) :
    powBody sem base s ≠ .outOfFuel := by
  have harith : ∀ z : Int, sem.arith z ≠ .outOfFuel := by
    intro z
    cases sem
    · by_cases hz : isInt z <;> simp [IntSem.arith, hz]
    · simp [IntSem.arith]
  unfold powBody
  cases h1 : sem.arith (s.result * base) with
  | ok r =>
    cases h2 : sem.arith (s.i + 1) with
    | ok j => simp [Run.bind]
    | undefinedBehaviour => simp [Run.bind]
    | outOfFuel => exact absurd h2 (harith _)
  | undefinedBehaviour => simp [Run.bind]
  | outOfFuel => exact absurd h1 (harith _)

/-- With at least `exp - i` units of fuel the loop ends: it never runs out of fuel. -/
theorem powLoop_ne_outOfFuel (sem : IntSem) (base exp : Int) (hmax : exp ≤ INT_MAX) :
    ∀ (fuel : Nat) (s : PowState), 0 ≤ s.i → (exp - s.i).toNat ≤ fuel →
      powLoop sem base exp fuel s ≠ .outOfFuel := by
  intro fuel
  induction fuel with
  | zero =>
    intro s _ hf
    have hc : ¬ s.i < exp := by omega
    rw [powLoop_exit _ _ _ _ _ hc]
    simp
  | succ fuel ih =>
    intro s h0 hf
    by_cases hc : s.i < exp
    · simp only [powLoop, hc, if_true]
      cases hb : powBody sem base s with
      | ok t =>
        obtain ⟨hi, _, _⟩ := powBody_counter sem base exp hmax s t h0 hc hb
        exact ih t (by omega) (by omega)
      | undefinedBehaviour => simp [Run.bind]
      | outOfFuel => exact absurd hb (powBody_ne_outOfFuel sem base s)
    · rw [powLoop_exit _ _ _ _ _ hc]
      simp

/-- The final loop state of `pow` under wrapping, for every `int` exponent. -/
theorem powRun_wrapping_total (base exp : Int) (hmax : exp ≤ INT_MAX) (fuel : Nat)
    (hfuel : exp.toNat ≤ fuel) :
    powRun .wrapping fuel base exp
      = .ok { i := max exp 0, result := wrapInt (base ^ exp.toNat),
              iterations := (max exp 0).toNat } := by
  rcases Int.lt_or_le exp 0 with hneg | hpos
  · rw [powRun_nonpos _ _ _ (by omega)]
    have h1 : max exp 0 = 0 := max_eq_right (by omega)
    have h2 : exp.toNat = 0 := by omega
    simp [h1, h2, powInit, wrapInt]
  · rw [powRun_wrapping base exp hpos hmax fuel hfuel]
    have h1 : max exp 0 = exp := max_eq_left hpos
    simp [h1]

/-- The value of `pow` under wrapping, for every `int` exponent. -/
theorem pow_wrap_value (base exp : Int) (hmax : exp ≤ INT_MAX) :
    pow .wrapping base exp = .ok (wrapInt (base ^ exp.toNat)) := by
  unfold pow
  rw [powRun_wrapping_total base exp hmax exp.toNat (Nat.le_refl _)]
  rfl

/-! ## `Point`, `midPoint`, `reflection` -/

theorem log2_div_pow : ∀ (h n : Nat), 2 ^ h ≤ n → Nat.log2 n = Nat.log2 (n / 2 ^ h) + h := by
  intro h
  induction h with
  | zero => intro n _; simp
  | succ h ih =>
    intro n hn
    have h1 : 1 ≤ 2 ^ h := Nat.one_le_two_pow
    have hn' : 2 * 2 ^ h ≤ n := by rw [pow_succ, Nat.mul_comm] at hn; exact hn
    have h2 : n ≥ 2 := by omega
    have hhalf : 2 ^ h ≤ n / 2 := by omega
    rw [Nat.log2]
    simp only [h2, if_true]
    rw [ih (n / 2) hhalf, Nat.div_div_eq_div_mul, pow_succ, Nat.mul_comm 2 (2 ^ h)]
    omega

theorem log2Bounded_eq : ∀ (k n : Nat), n < 2 ^ 2 ^ k → log2Bounded k n = Nat.log2 n := by
  intro k
  induction k with
  | zero =>
    intro n hn
    have h2 : ¬ n ≥ 2 := by simpa using hn
    rw [Nat.log2]
    simp [log2Bounded, h2]
  | succ k ih =>
    intro n hn
    rw [log2Bounded]
    by_cases hlt : n < 2 ^ 2 ^ k
    · simp only [hlt, if_true]
      exact ih n hlt
    · simp only [hlt, if_false]
      have hge : 2 ^ 2 ^ k ≤ n := by omega
      have hdiv : n / 2 ^ 2 ^ k < 2 ^ 2 ^ k := by
        apply Nat.div_lt_of_lt_mul
        rw [← pow_add, ← Nat.two_mul, ← pow_succ']
        exact hn
      rw [ih _ hdiv, log2_div_pow (2 ^ k) n hge]
      omega

theorem sizeExp_bound (n : Nat) : ∀ (fuel j : Nat), n < 2 ^ 2 ^ (j + fuel) →
    n < 2 ^ 2 ^ (j + sizeExp fuel (2 ^ 2 ^ j) n) := by
  intro fuel
  induction fuel with
  | zero => intro j h; simpa [sizeExp] using h
  | succ fuel ih =>
    intro j h
    rw [sizeExp]
    by_cases hlt : n < 2 ^ 2 ^ j
    · simp [hlt]
    · simp only [hlt, if_false]
      have hsq : 2 ^ 2 ^ j * 2 ^ 2 ^ j = 2 ^ 2 ^ (j + 1) := by
        rw [← pow_add, ← Nat.two_mul, ← pow_succ']
      rw [hsq]
      have h' : n < 2 ^ 2 ^ (j + 1 + fuel) := by
        have : j + 1 + fuel = j + (fuel + 1) := by omega
        rw [this]
        exact h
      have := ih (j + 1) h'
      have e : j + 1 + sizeExp fuel (2 ^ 2 ^ (j + 1)) n
          = j + (sizeExp fuel (2 ^ 2 ^ (j + 1)) n + 1) := by omega
      rw [e] at this
      exact this

theorem ilog2_eq_log2 (n : Nat) : ilog2 n = Nat.log2 n := by
  unfold ilog2
  apply log2Bounded_eq
  have h0 : n < 2 ^ 2 ^ (0 + n) := by
    have h1 : n < 2 ^ n := Nat.lt_two_pow n
    have h2 : 2 ^ n ≤ 2 ^ 2 ^ n :=
      Nat.pow_le_pow_right (by decide) (Nat.le_of_lt (Nat.lt_two_pow n))
    simpa using Nat.lt_of_lt_of_le h1 h2
  have := sizeExp_bound n n 0 h0
  simpa using this

theorem shift_eq (q : Nat) : Double.shift q = Nat.log2 q - 52 := by
  unfold Double.shift
  rw [ilog2_eq_log2]

theorem log2_double (k : Nat) (hk : 0 < k) : Nat.log2 (2 * k) = Nat.log2 k + 1 := by
  rw [Nat.log2]
  have : 2 * k ≥ 2 := by omega
  simp only [this, if_true]
  congr 2
  omega

set_option exponentiation.threshold 4000 in
theorem oneMag_pos : 0 < Double.oneMag := by
  unfold Double.oneMag
  exact Nat.pos_pow_of_pos _ (by decide)

set_option exponentiation.threshold 4000 in
theorem overflowMag_pos : 0 < Double.overflowMag := by
  unfold Double.overflowMag
  exact Nat.pos_pow_of_pos _ (by decide)

/-- Rounding to a natural number depends on the quotient only. -/
theorem roundNearestEven_mul_right (n d c : Nat) (hc : 0 < c) :
    roundNearestEven (n * c) (d * c) = roundNearestEven n d := by
  unfold roundNearestEven
  have hq : n * c / (d * c) = n / d := Nat.mul_div_mul_right n d hc
  have hr : n * c % (d * c) = n % d * c := Nat.mul_mod_mul_right c n d
  simp only [hq, hr]
  have h1 : 2 * (n % d * c) < d * c ↔ 2 * (n % d) < d := by
    rw [← Nat.mul_assoc]
    exact Nat.mul_lt_mul_right hc
  have h2 : d * c < 2 * (n % d * c) ↔ d < 2 * (n % d) := by
    rw [← Nat.mul_assoc]
    exact Nat.mul_lt_mul_right hc
  simp only [h1, h2]

/-- Correct rounding depends on the quotient only. -/
theorem round_mul_right (neg : Bool) (n d c : Nat) (hc : 0 < c) :
    Double.round neg (n * c) (d * c) = Double.round neg n d := by
  unfold Double.round
  have hq : n * c / (d * c) = n / d := Nat.mul_div_mul_right n d hc
  have hD : ∀ s : Nat, d * c * 2 ^ s = d * 2 ^ s * c := by intro s; ring
  simp only [hq, hD, roundNearestEven_mul_right _ _ _ hc]

/-- A magnitude that is a `double` rounds to itself. -/
theorem round_representable (neg : Bool) (k : Nat) (h : Double.representable k) :
    Double.round neg k 1 = .finite neg k := by
  obtain ⟨hlt, hmod⟩ := h
  unfold Double.round
  simp only [Nat.div_one, Nat.one_mul]
  have hpos : 0 < 2 ^ Double.shift k := Nat.pos_pow_of_pos _ (by decide)
  have hrne : roundNearestEven k (2 ^ Double.shift k) = k / 2 ^ Double.shift k := by
    unfold roundNearestEven
    simp [hmod, hpos]
  rw [hrne, Nat.div_mul_cancel (Nat.dvd_of_mod_eq_zero hmod)]
  simp [hlt]

/-- Twice a `double` is a `double`, short of overflow. -/
theorem representable_double (k : Nat) (h : Double.representable k)
    (hlt : 2 * k < Double.overflowMag) : Double.representable (2 * k) := by
  refine ⟨hlt, ?_⟩
  obtain ⟨_, hmod⟩ := h
  rcases Nat.eq_zero_or_pos k with rfl | hk
  · simp
  · rw [shift_eq] at hmod ⊢
    rw [log2_double k hk]
    by_cases h52 : 52 ≤ Nat.log2 k
    · have : Nat.log2 k + 1 - 52 = (Nat.log2 k - 52) + 1 := by omega
      rw [this, pow_succ, Nat.mul_comm (2 ^ _) 2, Nat.mul_mod_mul_left, hmod]
    · have : Nat.log2 k + 1 - 52 = 0 := by omega
      rw [this]
      simp [Nat.mod_one]

theorem round_zero (neg : Bool) (d : Nat) : Double.round neg 0 d = .finite neg 0 := by
  have h0 : Double.shift 0 = 0 := by simp [shift_eq, Nat.log2]
  have hr : roundNearestEven 0 (d * 2 ^ 0) = 0 := by simp [roundNearestEven]
  unfold Double.round
  simp only [Nat.zero_div, h0, hr]
  simp [overflowMag_pos]

theorem neg_round (s : Bool) (n d : Nat) :
    Double.neg (Double.round s n d) = Double.round (!s) n d := by
  unfold Double.round
  simp only
  split <;> rfl

theorem round_ne_nan (s : Bool) (n d : Nat) : Double.round s n d ≠ .nan := by
  unfold Double.round
  simp only
  split <;> simp

set_option exponentiation.threshold 4000 in
/-- The literal `2` as a `double`. -/
theorem ofNat_two : Double.ofNat 2 = .finite false (2 * Double.oneMag) := by decide

/-- Division of a finite `double` by the literal `2`: the correctly rounded half. -/
theorem div_two_finite (s : Bool) (m : Nat) :
    Double.div (.finite s m) (Double.ofNat 2) = Double.round s m 2 := by
  have h2 : 2 * Double.oneMag ≠ 0 := by have := oneMag_pos; omega
  rw [ofNat_two]
  simp only [Double.div, h2, if_false, Bool.bne_false]
  exact round_mul_right s m 2 Double.oneMag oneMag_pos

theorem div_two_inf (s : Bool) : Double.div (.inf s) (Double.ofNat 2) = .inf s := by
  rw [ofNat_two]
  simp only [Double.div, Bool.bne_false]

/-- Halving commutes with the change of sign. -/
theorem div_two_neg (z : Double) :
    Double.div (Double.neg z) (Double.ofNat 2) = Double.neg (Double.div z (Double.ofNat 2)) := by
  cases z with
  | finite s m =>
    show Double.div (.finite (!s) m) (Double.ofNat 2) = _
    rw [div_two_finite, div_two_finite, neg_round]
  | inf s =>
    show Double.div (.inf (!s)) (Double.ofNat 2) = _
    rw [div_two_inf, div_two_inf]
    rfl
  | nan =>
    rw [ofNat_two]
    rfl

theorem eq_self_of_ne_nan (z : Double) (h : z ≠ .nan) : Double.eq z z = true := by
  cases z with
  | finite s m => simp [Double.eq]
  | inf s => simp [Double.eq]
  | nan => exact absurd rfl h

theorem neg_ne_nan (z : Double) (h : z ≠ .nan) : Double.neg z ≠ .nan := by
  cases z <;> simp_all [Double.neg]

theorem div_two_ne_nan (z : Double) (h : z ≠ .nan) : Double.div z (Double.ofNat 2) ≠ .nan := by
  cases z with
  | finite s m => rw [div_two_finite]; exact round_ne_nan _ _ _
  | inf s => rw [div_two_inf]; simp
  | nan => exact absurd rfl h

/-- The sum of two finite `double`s is not a NaN. -/
theorem add_finite_ne_nan (s t : Bool) (a b : Nat) :
    Double.add (.finite s a) (.finite t b) ≠ .nan := by
  simp only [Double.add]
  split
  · exact round_ne_nan _ _ _
  · split
    · simp
    · split <;> exact round_ne_nan _ _ _

/-- Changing the sign of both summands changes the sign of the sum, unless the sum is the
zero of an exact cancellation, which is `+0` both times. -/
theorem add_neg_neg (s t : Bool) (a b : Nat) :
    Double.add (.finite (!s) a) (.finite (!t) b)
        = Double.neg (Double.add (.finite s a) (.finite t b)) ∨
      (Double.add (.finite s a) (.finite t b) = .finite false 0 ∧
        Double.add (.finite (!s) a) (.finite (!t) b) = .finite false 0) := by
  by_cases hst : s = t
  · left
    subst hst
    simp [Double.add, neg_round]
  · have hst2 : ¬ (!s) = (!t) := by simpa using hst
    by_cases hab : a = b
    · right
      simp [Double.add, hst, hst2, hab]
    · left
      by_cases hlt : b < a
      · simp [Double.add, hst, hst2, hab, hlt, neg_round]
      · simp [Double.add, hst, hst2, hab, hlt, neg_round]

/-- One coordinate of the law `reflection ∘ midPoint = midPoint ∘ (reflection, reflection)`,
for finite `double`s and the comparison `==`. -/
theorem neg_mean_eq (x y : Double) (hx : x.isFinite = true) (hy : y.isFinite = true) :
    Double.eq (Double.neg (Double.div (Double.add x y) (Double.ofNat 2)))
      (Double.div (Double.add (Double.neg x) (Double.neg y)) (Double.ofNat 2)) = true := by
  cases x with
  | finite s a =>
    cases y with
    | finite t b =>
      simp only [Double.neg]
      rcases add_neg_neg s t a b with h | ⟨h1, h2⟩
      · rw [h, div_two_neg]
        apply eq_self_of_ne_nan
        exact neg_ne_nan _ (div_two_ne_nan _ (add_finite_ne_nan s t a b))
      · rw [h1, h2, div_two_finite, round_zero]
        simp [Double.neg, Double.eq]
    | inf t => simp [Double.isFinite] at hy
    | nan => simp [Double.isFinite] at hy
  | inf s => simp [Double.isFinite] at hx
  | nan => simp [Double.isFinite] at hx

/-- The sum of two finite `double`s is exact when the exact sum is a `double`. -/
theorem add_units (x y : Double) (a b : Int) (hx : x.units = some a) (hy : y.units = some b)
    (hrep : Double.representable (a + b).natAbs) : (Double.add x y).units = some (a + b) := by
  cases x with
  | finite s m =>
    cases y with
    | finite t n =>
      cases s <;> cases t <;> simp only [Double.units, Option.some.injEq] at hx hy <;>
        subst hx <;> subst hy
      · have h : ((m : Int) + (n : Int)).natAbs = m + n := by omega
        rw [h] at hrep
        simp [Double.add, round_representable _ _ hrep, Double.units]
      · by_cases hmn : m = n
        · simp [Double.add, hmn, Double.units]
        · by_cases hlt : n < m
          · have h : ((m : Int) + -(n : Int)).natAbs = m - n := by omega
            rw [h] at hrep
            simp only [Double.add, hmn, hlt, if_true, if_false, Bool.false_eq_true,
              round_representable _ _ hrep, Double.units, Option.some.injEq]
            omega
          · have h : ((m : Int) + -(n : Int)).natAbs = n - m := by omega
            rw [h] at hrep
            simp only [Double.add, hmn, hlt, if_false, Bool.false_eq_true,
              round_representable _ _ hrep, Double.units, Option.some.injEq]
            omega
      · by_cases hmn : m = n
        · simp [Double.add, hmn, Double.units]
        · by_cases hlt : n < m
          · have h : (-(m : Int) + (n : Int)).natAbs = m - n := by omega
            rw [h] at hrep
            simp only [Double.add, hmn, hlt, if_true, if_false, Bool.true_eq_false,
              round_representable _ _ hrep, Double.units, Option.some.injEq]
            omega
          · have h : (-(m : Int) + (n : Int)).natAbs = n - m := by omega
            rw [h] at hrep
            simp only [Double.add, hmn, hlt, if_false, Bool.true_eq_false,
              round_representable _ _ hrep, Double.units, Option.some.injEq]
            omega
      · have h : (-(m : Int) + -(n : Int)).natAbs = m + n := by omega
        rw [h] at hrep
        simp only [Double.add, if_true, round_representable _ _ hrep, Double.units,
          Option.some.injEq]
        omega
    | inf t => simp [Double.units] at hy
    | nan => simp [Double.units] at hy
  | inf s => simp [Double.units] at hx
  | nan => simp [Double.units] at hx

/-- The half of a finite `double` is exact when the exact half is a `double`. -/
theorem half_units (z : Double) (h : Int) (hz : z.units = some (2 * h))
    (hrep : Double.representable h.natAbs) :
    (Double.div z (Double.ofNat 2)).units = some h := by
  cases z with
  | finite s m =>
    have hm : m = h.natAbs * 2 := by
      cases s <;> simp only [Double.units, Option.some.injEq] at hz <;> omega
    rw [div_two_finite, hm]
    have h1 : Double.round s (h.natAbs * 2) 2 = Double.round s h.natAbs 1 :=
      round_mul_right s h.natAbs 1 2 (by decide)
    rw [h1, round_representable _ _ hrep]
    cases s <;> simp only [Double.units, Option.some.injEq] at hz ⊢ <;> omega
  | inf s => simp [Double.units] at hz
  | nan => simp [Double.units] at hz

/-- The coordinate `(x + y) / 2` of `midPoint` is the exact mean when the exact sum and the
exact mean are both `double`s. -/
theorem mean_units (x y : Double) (a b h : Int) (hx : x.units = some a) (hy : y.units = some b)
    (hsum : a + b = 2 * h) (hrep : Double.representable (a + b).natAbs)
    (hhalf : Double.representable h.natAbs) :
    (Double.div (Double.add x y) (Double.ofNat 2)).units = some h := by
  apply half_units _ h _ hhalf
  rw [add_units x y a b hx hy hrep, hsum]

/-- The coordinate `(x + x) / 2` of `midPoint(p, p)` is `x` when `x + x` does not overflow. -/
theorem mean_self (s : Bool) (a : Nat) (ha : Double.representable a)
    (ha2 : 2 * a < Double.overflowMag) :
    Double.div (Double.add (.finite s a) (.finite s a)) (Double.ofNat 2) = .finite s a := by
  have hadd : Double.add (.finite s a) (.finite s a) = .finite s (2 * a) := by
    simp only [Double.add, if_true]
    rw [← Nat.two_mul]
    exact round_representable s (2 * a) (representable_double a ha ha2)
  rw [hadd, div_two_finite, Nat.mul_comm 2 a]
  have h1 : Double.round s (a * 2) 2 = Double.round s a 1 :=
    round_mul_right s a 1 2 (by decide)
  rw [h1, round_representable s a ha]

set_option exponentiation.threshold 4000 in
/-- The midpoint of the two points of `main`, evaluated in `double` arithmetic. -/
theorem midPoint_main_eval :
    midPoint (Point.ctor (9.4 : Double) 27.7) (Point.ctor 28.8 5.3) = Point.ctor 19.1 16.5 := by
  decide

set_option exponentiation.threshold 4000 in
/-- The midpoint of the reflections of the two points of `main`, evaluated in `double`
arithmetic. -/
theorem midPoint_reflection_main_eval :
    midPoint (reflection (Point.ctor (9.4 : Double) 27.7)) (reflection (Point.ctor 28.8 5.3))
      = Point.ctor (-19.1) (-16.5) := by
  decide

/-! ## The claims -/

/-- C1: for every base `b` and every `int` exponent `e ≥ 0` such that `b ^ e` is representable
as a 32-bit signed `int`, `pow(b, e)` returns exactly `b ^ e`, under either reading of overflow
(in particular under the strict one, where a product leaving the range would not return), and
every intermediate power `b ^ k`, `k ≤ e`, is representable. -/
theorem pow_exact_of_representable (sem : IntSem) (b e : Int) (he : 0 ≤ e) (hmax : e ≤ INT_MAX)
    (hrep : isInt (b ^ e.toNat)) :
    pow sem b e = .ok (b ^ e.toNat) ∧ ∀ k : Nat, k ≤ e.toNat → isInt (b ^ k) := by
  refine ⟨?_, isInt_pow_le b e.toNat hrep⟩
  unfold pow
  rw [powRun_exact sem b e he hmax hrep e.toNat (Nat.le_refl _)]
  rfl

/-- Witness of C1 at the two examples of the specification: `pow(2, 10) = 1024` and
`pow(3, 4) = 81` under the strict reading. -/
theorem pow_exact_of_representable_witness :
    pow .strict 2 10 = .ok 1024 ∧ pow .strict 3 4 = .ok 81 :=
  ⟨(pow_exact_of_representable .strict 2 10 (by decide) (by decide) (by decide)).1,
   (pow_exact_of_representable .strict 3 4 (by decide) (by decide) (by decide)).1⟩

/-- C2: for every integer `b`, `pow(b, 0)` returns `1`, under either reading of overflow. -/
theorem pow_exp_zero (sem : IntSem) (b : Int) : pow sem b 0 = .ok 1 := by
  unfold pow
  rw [powRun_nonpos sem b 0 (Int.le_refl 0)]
  rfl

/-- C3: for every base `b` and every exponent `e < 0`, `pow(b, e)` returns `1` normally, and
the loop body is executed zero times, however many passes the model allows. -/
theorem pow_exp_neg (sem : IntSem) (b e : Int) (he : e < 0) :
    pow sem b e = .ok 1 ∧
      ∀ fuel : Nat, (powRun sem fuel b e).map PowState.iterations = .ok 0 := by
  constructor
  · unfold pow
    rw [powRun_nonpos sem b e (by omega)]
    rfl
  · intro fuel
    rw [powRun_nonpos sem b e (by omega)]
    rfl

/-- Witness of C3 at `pow(5, -3)`. -/
theorem pow_exp_neg_witness :
    ((-3 : Int) < 0) ∧ pow .strict 5 (-3) = .ok 1 ∧
      ∀ fuel : Nat, (powRun .strict fuel 5 (-3)).map PowState.iterations = .ok 0 :=
  ⟨by decide, pow_exp_neg .strict 5 (-3) (by decide)⟩

/-- C4 (amended): for every two points `p1` and `p2`, `midPoint(p1, p2)` is the point whose
`x` is `(p1.x + p2.x) / 2` and whose `y` is `(p1.y + p2.y) / 2` in the arithmetic of the
coordinates, which for the program is `double` arithmetic: the sum and the quotient by `2` are
each rounded to the nearest `double`.  The coordinate is the exact mean whenever the exact sum
and the exact mean are both `double`s.  In particular
`midPoint(Point(9.4, 27.7), Point(28.8, 5.3))` equals `Point(19.1, 16.5)`, and this is the
value of `mid` in `main`. -/
theorem midPoint_mean :
    (∀ (α : Type) [Zero α] [Add α] [Div α] [OfNat α 2] (p1 p2 : Point α),
        (midPoint p1 p2).xValue.1 = (p1.xValue.1 + p2.xValue.1) / 2 ∧
        (midPoint p1 p2).yValue.1 = (p1.yValue.1 + p2.yValue.1) / 2) ∧
    (∀ p1 p2 : Point Double,
        (midPoint p1 p2).xValue.1
          = Double.div (Double.add p1.xValue.1 p2.xValue.1) (Double.ofNat 2) ∧
        (midPoint p1 p2).yValue.1
          = Double.div (Double.add p1.yValue.1 p2.yValue.1) (Double.ofNat 2)) ∧
    (∀ (p1 p2 : Point Double) (a b h : Int),
        p1.xValue.1.units = some a → p2.xValue.1.units = some b → a + b = 2 * h →
        Double.representable (a + b).natAbs → Double.representable h.natAbs →
        (midPoint p1 p2).xValue.1.units = some h) ∧
    (∀ (p1 p2 : Point Double) (a b h : Int),
        p1.yValue.1.units = some a → p2.yValue.1.units = some b → a + b = 2 * h →
        Double.representable (a + b).natAbs → Double.representable h.natAbs →
        (midPoint p1 p2).yValue.1.units = some h) ∧
    midPoint (Point.ctor (9.4 : Double) 27.7) (Point.ctor 28.8 5.3) = Point.ctor 19.1 16.5 ∧
    ∀ data2 data3, (main data2 data3).1.mid = Point.ctor 19.1 16.5 := by
  refine ⟨fun α _ _ _ _ p1 p2 => ⟨rfl, rfl⟩, fun p1 p2 => ⟨rfl, rfl⟩, ?_, ?_,
    midPoint_main_eval, fun data2 data3 => midPoint_main_eval⟩
  · intro p1 p2 a b h hx hy hsum hrep hhalf
    exact mean_units _ _ a b h hx hy hsum hrep hhalf
  · intro p1 p2 a b h hx hy hsum hrep hhalf
    exact mean_units _ _ a b h hx hy hsum hrep hhalf

set_option exponentiation.threshold 4000 in
/-- Witness of C4 at `midPoint(Point(1, 3), Point(2, 5))`: the exact sum `3` and the exact mean
`1.5` of the `x` coordinates are `double`s, and the `x` of the midpoint is `1.5`, that is
`3 * 2^1073` units of `2^-1074`. -/
theorem midPoint_mean_witness :
    (midPoint (Point.ctor (1 : Double) 3) (Point.ctor 2 5)).xValue.1.units
      = some ((3 * 2 ^ 1073 : Nat) : Int) :=
  midPoint_mean.2.2.1 (Point.ctor 1 3) (Point.ctor 2 5) ((2 ^ 1074 : Nat) : Int)
    ((2 ^ 1075 : Nat) : Int) ((3 * 2 ^ 1073 : Nat) : Int)
    (by decide) (by decide) (by decide) (by decide) (by decide)

set_option exponentiation.threshold 4000 in
/-- Counterexample to C4 as stated.  For `p1 = Point(1, 0)` and `p2 = Point(2^-53, 0)`, both
with `double` coordinates, the `x` of `midPoint(p1, p2)` is `0.5`, not the exact mean
`0.5 + 2^-54` (in units of `2^-1074`: twice `2^1073` is not `2^1074 + 2^1021`).  Likewise
the `x` of `midPoint(Point(0.1, 0), Point(0.2, 0))` does not compare equal to `0.15`. -/
theorem midPoint_mean_counterexample :
    Double.representable (2 ^ 1021) ∧
    (Point.ctor (1 : Double) 0).xValue.1.units = some ((2 ^ 1074 : Nat) : Int) ∧
    (Point.ctor (Double.finite false (2 ^ 1021)) 0).xValue.1.units
      = some ((2 ^ 1021 : Nat) : Int) ∧
    (midPoint (Point.ctor (1 : Double) 0)
        (Point.ctor (Double.finite false (2 ^ 1021)) 0)).xValue.1.units
      = some ((2 ^ 1073 : Nat) : Int) ∧
    2 * 2 ^ 1073 ≠ 2 ^ 1074 + 2 ^ 1021 ∧
    Double.eq (midPoint (Point.ctor (0.1 : Double) 0) (Point.ctor 0.2 0)).xValue.1 0.15
      = false := by
  refine ⟨by decide, by decide, by decide, by decide, by decide, by decide⟩

/-- C5: for every point `p`, `reflection(p)` has `x = -p.x` and `y = -p.y`, for any carrier of
coordinates with a negation; `reflection(Point(19.1, 16.5))` is `Point(-19.1, -16.5)`, over the
rationals and over `double`, and this is the value of `reflectedMid` in `main`. -/
theorem reflection_negates :
    (∀ (α : Type) [Zero α] [Neg α] (p : Point α),
        (reflection p).xValue.1 = -p.xValue.1 ∧ (reflection p).yValue.1 = -p.yValue.1) ∧
      reflection (Point.ctor (19.1 : ℚ) 16.5) = Point.ctor (-19.1) (-16.5) ∧
      reflection (Point.ctor (19.1 : Double) 16.5) = Point.ctor (-19.1) (-16.5) ∧
      ∀ data2 data3, (main data2 data3).1.reflectedMid = Point.ctor (-19.1) (-16.5) := by
  refine ⟨fun α _ _ p => ⟨rfl, rfl⟩, rfl, rfl, fun data2 data3 => ?_⟩
  show reflection (midPoint (Point.ctor (9.4 : Double) 27.7) (Point.ctor 28.8 5.3)) = _
  rw [midPoint_main_eval]
  rfl

/-- C6: a default-constructed `Point()` equals `Point(0, 0)`, its `xValue()` and `yValue()`
are `0`; `Point(a)` has `xValue() = a` and `yValue() = 0`. -/
theorem point_default {α : Type} [Zero α] :
    (Point.ctor : Point α) = Point.ctor 0 0 ∧
      (Point.ctor : Point α).xValue.1 = 0 ∧ (Point.ctor : Point α).yValue.1 = 0 ∧
      ∀ a : α, (Point.ctor a).xValue.1 = a ∧ (Point.ctor a).yValue.1 = 0 :=
  ⟨rfl, rfl, rfl, fun _ => ⟨rfl, rfl⟩⟩

/-- C7: the constructor stores its arguments unchanged and the accessors read them back:
`Point(a, b).xValue() = a`, `Point(a, b).yValue() = b`; an accessor call leaves the point as
it was. -/
theorem point_accessors {α : Type} [Zero α] :
    (∀ a b : α, (Point.ctor a b).xValue.1 = a ∧ (Point.ctor a b).yValue.1 = b) ∧
      ∀ p : Point α, p.xValue.2 = p ∧ p.yValue.2 = p :=
  ⟨fun _ _ => ⟨rfl, rfl⟩, fun _ => ⟨rfl, rfl⟩⟩

/-- C8: after `p.setX(v)` the point has `xValue() = v` and the same `yValue()`; after
`p.setY(v)` it has `yValue() = v` and the same `xValue()`. -/
theorem point_setters {α : Type} (p : Point α) (v : α) :
    ((p.setX v).2.xValue.1 = v ∧ (p.setX v).2.yValue.1 = p.yValue.1) ∧
      ((p.setY v).2.yValue.1 = v ∧ (p.setY v).2.xValue.1 = p.xValue.1) :=
  ⟨⟨rfl, rfl⟩, ⟨rfl, rfl⟩⟩

/-- C9: `main` returns exit status `1` on every execution, whatever the contents of its
arrays and whatever values it computes. -/
theorem main_exit_status (data2 : Fin main.arraySize2.toNat → Int)
    (data3 : Fin main.arraySize3.toNat → Int) : (main data2 data3).2 = 1 := rfl

/-- C10: under 32-bit two's-complement wrapping, for every base `b` and every `int` exponent
`e ≥ 0`, `pow(b, e)` returns normally the value `r` with `INT_MIN ≤ r ≤ INT_MAX` and
`r ≡ b ^ e` modulo `2 ^ 32`. -/
theorem pow_wrapping (b e : Int) (he : 0 ≤ e) (hmax : e ≤ INT_MAX) :
    pow .wrapping b e = .ok (wrapInt (b ^ e.toNat)) ∧
      isInt (wrapInt (b ^ e.toNat)) ∧
      (2 ^ 32 : Int) ∣ wrapInt (b ^ e.toNat) - b ^ e.toNat := by
  refine ⟨?_, isInt_wrapInt _, ?_⟩
  · unfold pow
    rw [powRun_wrapping b e he hmax e.toNat (Nat.le_refl _)]
    rfl
  · have h := wrapInt_congruent (b ^ e.toNat)
    norm_num
    exact h

/-- Witness of C10 at the overflowing input `pow(65536, 2)`, whose exact value `2 ^ 32` wraps
to `0`. -/
theorem pow_wrapping_witness :
    pow .wrapping 65536 2 = .ok 0 ∧ ¬ isInt (65536 ^ 2) :=
  ⟨(pow_wrapping 65536 2 (by decide) (by decide)).1, by decide⟩

/-- C12: `pow` terminates for every base and every `int` exponent.  The counter starts at `0`;
each completed pass raises it by exactly one and keeps it at most `INT_MAX`; with `exp.toNat`
units of fuel the loop never runs out of fuel under either reading of overflow; and under
wrapping, for any fuel from `exp.toNat` on, the loop ends with `i = max(exp, 0)` after exactly
`max(exp, 0)` executions of the body (for a negative exponent the counter stays at `0`). -/
theorem pow_terminates (b e : Int) (hmax : e ≤ INT_MAX) :
    powInit.i = 0 ∧
    (∀ (sem : IntSem) (s t : PowState), 0 ≤ s.i → s.i < e → powBody sem b s = .ok t →
        t.i = s.i + 1 ∧ s.i + 1 ≤ INT_MAX ∧ t.iterations = s.iterations + 1) ∧
    (∀ sem : IntSem, powRun sem e.toNat b e ≠ .outOfFuel) ∧
    (∀ fuel : Nat, e.toNat ≤ fuel →
        powRun .wrapping fuel b e
          = .ok { i := max e 0, result := wrapInt (b ^ e.toNat),
                  iterations := (max e 0).toNat }) ∧
    max e 0 ≤ INT_MAX := by
  refine ⟨rfl, ?_, ?_, ?_, ?_⟩
  · intro sem s t h0 hc h
    exact powBody_counter sem b e hmax s t h0 hc h
  · intro sem
    apply powLoop_ne_outOfFuel sem b e hmax
    · simp [powInit]
    · simp [powInit]
  · intro fuel hfuel
    exact powRun_wrapping_total b e hmax fuel hfuel
  · unfold INT_MAX at hmax ⊢
    omega

/-- Witness of C12 at `pow(2, 3)`: the loop ends with `i = 3`, `result = 8` after three
executions of the body. -/
theorem pow_terminates_witness :
    (3 : Int) ≤ INT_MAX ∧
      powRun .wrapping 3 2 3 = .ok { i := 3, result := 8, iterations := 3 } :=
  ⟨by decide, (pow_terminates 2 3 (by decide)).2.2.2.1 3 (Nat.le_refl 3)⟩

/-- C13: for every base `b` and all exponents `m ≥ 0`, `n ≥ 0` with `m + n` an `int`, under
wrapping `pow(b, m)` and `pow(b, n)` return values `x` and `y` and `pow(b, m + n)` returns the
wrapped product `x * y`. -/
theorem pow_add_exp (b m n : Int) (hm : 0 ≤ m) (hn : 0 ≤ n) (hmn : m + n ≤ INT_MAX) :
    ∃ x y : Int, pow .wrapping b m = .ok x ∧ pow .wrapping b n = .ok y ∧
      pow .wrapping b (m + n) = IntSem.wrapping.arith (x * y) := by
  refine ⟨_, _, pow_wrap_value b m (by omega), pow_wrap_value b n (by omega), ?_⟩
  rw [pow_wrap_value b (m + n) hmn]
  simp only [IntSem.arith]
  rw [wrapInt_mul_left, wrapInt_mul_right, Int.toNat_add hm hn, pow_add]

/-- Witness of C13 at `b = 65536`, `m = n = 1`, where the product overflows: both sides
are `0`. -/
theorem pow_add_exp_witness :
    ∃ x y : Int, pow .wrapping 65536 1 = .ok x ∧ pow .wrapping 65536 1 = .ok y ∧
      pow .wrapping 65536 (1 + 1) = IntSem.wrapping.arith (x * y) :=
  pow_add_exp 65536 1 1 (by decide) (by decide) (by decide)

/-- C16: for every two points `p1` and `p2` with finite `double` coordinates,
`reflection(midPoint(p1, p2))` and `midPoint(reflection(p1), reflection(p2))` have equal
coordinates (`==`); `reflectedMid` of `main` is the left-hand side at the points `p1`, `p2` of
`main`, and there the two sides are the same point. -/
theorem reflection_midPoint :
    (∀ p1 p2 : Point Double,
        p1.xValue.1.isFinite = true → p1.yValue.1.isFinite = true →
        p2.xValue.1.isFinite = true → p2.yValue.1.isFinite = true →
        Double.eq (reflection (midPoint p1 p2)).xValue.1
            (midPoint (reflection p1) (reflection p2)).xValue.1 = true ∧
        Double.eq (reflection (midPoint p1 p2)).yValue.1
            (midPoint (reflection p1) (reflection p2)).yValue.1 = true) ∧
      ∀ data2 data3,
        (main data2 data3).1.reflectedMid
            = reflection (midPoint (main data2 data3).1.p1 (main data2 data3).1.p2) ∧
        (main data2 data3).1.reflectedMid
            = midPoint (reflection (main data2 data3).1.p1)
                (reflection (main data2 data3).1.p2) := by
  refine ⟨fun p1 p2 h1x h1y h2x h2y => ⟨?_, ?_⟩, fun data2 data3 => ⟨rfl, ?_⟩⟩
  · exact neg_mean_eq p1.x p2.x h1x h2x
  · exact neg_mean_eq p1.y p2.y h1y h2y
  · show reflection (midPoint (Point.ctor (9.4 : Double) 27.7) (Point.ctor 28.8 5.3))
        = midPoint (reflection (Point.ctor (9.4 : Double) 27.7))
            (reflection (Point.ctor 28.8 5.3))
    rw [midPoint_main_eval, midPoint_reflection_main_eval]
    rfl

set_option exponentiation.threshold 4000 in
/-- Witness of C16 at the points `Point(9.4, 27.7)` and `Point(28.8, 5.3)` of `main`. -/
theorem reflection_midPoint_witness :
    Double.eq
        (reflection (midPoint (Point.ctor (9.4 : Double) 27.7) (Point.ctor 28.8 5.3))).xValue.1
        (midPoint (reflection (Point.ctor (9.4 : Double) 27.7))
          (reflection (Point.ctor 28.8 5.3))).xValue.1 = true ∧
      Double.eq
        (reflection (midPoint (Point.ctor (9.4 : Double) 27.7) (Point.ctor 28.8 5.3))).yValue.1
        (midPoint (reflection (Point.ctor (9.4 : Double) 27.7))
          (reflection (Point.ctor 28.8 5.3))).yValue.1 = true :=
  reflection_midPoint.1 (Point.ctor 9.4 27.7) (Point.ctor 28.8 5.3)
    (by decide) (by decide) (by decide) (by decide)

/-- C17 (amended): for every point `p` whose coordinates are finite `double`s such that
`p.x + p.x` and `p.y + p.y` do not overflow (twice the magnitude stays below `2^1024`),
`midPoint(p, p)` has the same `x` and `y` coordinates as `p`. -/
theorem midPoint_idem (p : Point Double) (sx sy : Bool) (a b : Nat)
    (hx : p.xValue.1 = .finite sx a) (hy : p.yValue.1 = .finite sy b)
    (ha : Double.representable a) (hb : Double.representable b)
    (ha2 : 2 * a < Double.overflowMag) (hb2 : 2 * b < Double.overflowMag) :
    (midPoint p p).xValue.1 = p.xValue.1 ∧ (midPoint p p).yValue.1 = p.yValue.1 := by
  constructor
  · show Double.div (Double.add p.xValue.1 p.xValue.1) (Double.ofNat 2) = p.xValue.1
    rw [hx]
    exact mean_self sx a ha ha2
  · show Double.div (Double.add p.yValue.1 p.yValue.1) (Double.ofNat 2) = p.yValue.1
    rw [hy]
    exact mean_self sy b hb hb2

set_option exponentiation.threshold 4000 in
/-- Witness of C17 at `p = Point(1, -2)`. -/
theorem midPoint_idem_witness :
    (midPoint (Point.ctor (1 : Double) (-2)) (Point.ctor (1 : Double) (-2))).xValue.1
        = (Point.ctor (1 : Double) (-2)).xValue.1 ∧
      (midPoint (Point.ctor (1 : Double) (-2)) (Point.ctor (1 : Double) (-2))).yValue.1
        = (Point.ctor (1 : Double) (-2)).yValue.1 :=
  midPoint_idem (Point.ctor 1 (-2)) false true (2 ^ 1074) (2 ^ 1075)
    (by decide) (by decide) (by decide) (by decide) (by decide) (by decide)

set_option exponentiation.threshold 4000 in
/-- Counterexample to C17 as stated: `DBL_MAX` is a finite `double`, and for
`p = Point(DBL_MAX, 0)` the sum `p.x + p.x` overflows, so the `x` of `midPoint(p, p)` is
`+inf`, which does not compare equal to `DBL_MAX`. -/
theorem midPoint_idem_counterexample :
    Double.representable ((2 ^ 53 - 1) * 2 ^ 2045) ∧
    (Point.ctor DBL_MAX 0).xValue.1 = .finite false ((2 ^ 53 - 1) * 2 ^ 2045) ∧
    (midPoint (Point.ctor DBL_MAX 0) (Point.ctor DBL_MAX 0)).xValue.1 = .inf false ∧
    Double.eq (midPoint (Point.ctor DBL_MAX 0) (Point.ctor DBL_MAX 0)).xValue.1
      (Point.ctor DBL_MAX 0).xValue.1 = false := by
  refine ⟨by decide, by decide, by decide, by decide⟩

end ConstexprTest
